import Mathlib

/-!
Shallow embedding of the core logic of the `livestream-splitter` repository
(`src/stream_splitter/`): time/duration utilities, filename sanitisation,
the segmentation planner, the segment executor, the intro/outro
concatenation stage, the compatibility checker, output-pattern rendering
and configuration serialisation.  External collaborators (ffmpeg, the
filesystem, pyyaml/json) are modelled by explicit oracles or by faithful
models of their documented behaviour.
-/

namespace StreamSplitter

/-! ## `utils.format_duration` (src/stream_splitter/utils.py, lines 10-22)

Python builds `td = timedelta(seconds=seconds)` and then reads `td.seconds`,
which is the number of whole seconds *within the day part* of the duration:
for a non-negative input it equals `⌊seconds⌋ % 86400`.  The fractional part
goes into `td.microseconds` and is discarded.  We model the (real-valued)
input as a rational. -/

def format_duration (seconds : ℚ) : String :=
  let td_seconds : ℕ := ((Int.floor seconds).emod 86400).toNat
  let hours : ℕ := td_seconds / 3600
  let minutes : ℕ := (td_seconds % 3600) / 60
  let secs : ℕ := td_seconds % 60
  if hours > 0 then
    toString hours ++ "h " ++ toString minutes ++ "m " ++ toString secs ++ "s"
  else if minutes > 0 then
    toString minutes ++ "m " ++ toString secs ++ "s"
  else
    toString secs ++ "s"

/-- The rendering that claim C8 describes: `h` is the *total* number of whole
hours (no wrap-around at 24 h), with floor-truncation through the second. -/
def claimed_format_duration (seconds : ℚ) : String :=
  let n : ℕ := (Int.floor seconds).toNat
  if n < 60 then
    toString n ++ "s"
  else if n < 3600 then
    toString (n / 60) ++ "m " ++ toString (n % 60) ++ "s"
  else
    toString (n / 3600) ++ "h " ++ toString ((n % 3600) / 60) ++ "m " ++ toString (n % 60) ++ "s"

/-! ## `utils.sanitize_filename` (src/stream_splitter/utils.py, lines 25-59) -/

/-- The Windows-invalid character class `[<>:"/\\|?*]` of the source. -/
def invalidChars : List Char := ['<', '>', ':', '"', '/', '\\', '|', '?', '*']

/-- Python's `\s` on the ASCII characters that survive the ascii-encode step. -/
def pyWhitespace (c : Char) : Bool :=
  c = ' ' || c = '\t' || c = '\n' || c = '\r' || c = '\x0b' || c = '\x0c'

/-- A character collapsed by `re.sub(r'[\s_]+', '_', …)`. -/
def wsOrUnderscore (c : Char) : Bool :=
  pyWhitespace c || c = '_'

/-- `re.sub(r'[\s_]+', '_', …)`: each maximal run of whitespace/underscore
characters becomes a single `'_'`.  The boolean records whether we are
currently inside such a run (its first character already emitted `'_'`). -/
def collapseAux : Bool → List Char → List Char
  | _, [] => []
  | inRun, c :: rest =>
    if wsOrUnderscore c then
      if inRun then collapseAux true rest
      else '_' :: collapseAux true rest
    else
      c :: collapseAux false rest

def collapseRuns (l : List Char) : List Char := collapseAux false l

/-- `str.strip('. ')`: drop leading and trailing dots and spaces. -/
def stripDotsSpaces (l : List Char) : List Char :=
  ((l.dropWhile fun c => c = '.' || c = ' ').reverse.dropWhile
    fun c => c = '.' || c = ' ').reverse

/-- `re.sub(r'[<>:"/\\|?*]', '_', filename)`. -/
def replaceInvalid (l : List Char) : List Char :=
  l.map fun c => if c ∈ invalidChars then '_' else c

/-- The NFKD-normalise + `encode('ascii','ignore')` step: non-ASCII
characters are dropped (the ASCII subset, which is all the claims exercise,
is NFKD-invariant, and characters with no ASCII decomposition are dropped). -/
def dropNonAscii (l : List Char) : List Char :=
  l.filter fun c => c.toNat ≤ 127

/-- `sanitize_filename` from the source, step by step: replace invalid
characters with `'_'`; drop non-ASCII characters; strip leading/trailing
`.` and space; collapse whitespace/underscore runs to one `'_'`;
`"unnamed"` if empty; truncate to `max_length`. -/
def sanitize_filename (filename : String) (max_length : ℕ := 100) : String :=
  let s4 := collapseRuns (stripDotsSpaces (dropNonAscii (replaceInvalid filename.data)))
  String.mk ((if s4 = [] then "unnamed".data else s4).take max_length)

/-- No two adjacent characters are both `'_'`. -/
def noDoubleUnderscore : List Char → Bool
  | [] => true
  | [_] => true
  | c1 :: c2 :: rest =>
    (!(c1 = '_' && c2 = '_')) && noDoubleUnderscore (c2 :: rest)

/-! ## `utils.parse_time_string` (src/stream_splitter/utils.py, lines 118-177)

The source lowercases and strips the input, then tries: (a) `str.isdigit`,
(b) `re.search(r'(\d+)\s*h')` / `…m` / `…s` summed when the total is
positive, (c) `split(':')` into 3 or 2 integer parts.  We model the ASCII
fragment of Python's character classes (all the repository's inputs are
ASCII). -/

/-- Numeric value of a digit run (most significant first). -/
def natOfDigits (l : List Char) : ℕ :=
  l.foldl (fun acc c => acc * 10 + (c.toNat - 48)) 0

/-- Try to match the regex `(\d+)\s*u` starting exactly at position `i`:
a maximal digit run, then optional whitespace, then the unit letter `u`.
(The regex engine's backtracking cannot produce any other shape here, since
a shorter digit run is followed by a digit, which is neither `\s` nor a
letter.) -/
def matchUnitAt (u : Char) (l : List Char) (i : ℕ) : Option ℕ :=
  let t := l.drop i
  let ds := t.takeWhile Char.isDigit
  if ds.isEmpty then none
  else
    match (t.dropWhile Char.isDigit).dropWhile pyWhitespace with
    | c :: _ => if c = u then some (natOfDigits ds) else none
    | [] => none

/-- `re.search(r'(\d+)\s*u', s)`: leftmost match wins. -/
def searchUnit (u : Char) (l : List Char) : Option ℕ :=
  (List.range l.length).findSome? (matchUnitAt u l)

/-- Python `int(str)` on one colon-separated component: optional surrounding
whitespace, an optional sign, then digits optionally separated by single
underscores.  Accumulator-style digit scanner for the `\d(_?\d)*` body. -/
def pyIntDigits : ℕ → List Char → Option ℕ
  | acc, [] => some acc
  | acc, '_' :: c :: rest =>
    if c.isDigit then pyIntDigits (acc * 10 + (c.toNat - 48)) rest else none
  | acc, c :: rest =>
    if c.isDigit then pyIntDigits (acc * 10 + (c.toNat - 48)) rest else none

def pyIntBody (l : List Char) : Option ℕ :=
  match l with
  | c :: rest => if c.isDigit then pyIntDigits (c.toNat - 48) rest else none
  | [] => none

def pyInt (l : List Char) : Option ℤ :=
  let t := (l.dropWhile pyWhitespace).reverse.dropWhile pyWhitespace |>.reverse
  match t with
  | '+' :: r => (pyIntBody r).map fun n => (n : ℤ)
  | '-' :: r => (pyIntBody r).map fun n => -(n : ℤ)
  | r => (pyIntBody r).map fun n => (n : ℤ)

/-- `str.split(':')`: splits on every colon, keeping empty pieces; the empty
string yields one empty piece (Python `"".split(':') == [""]`). -/
def splitOnColon : List Char → List (List Char)
  | [] => [[]]
  | c :: rest =>
    let r := splitOnColon rest
    if c = ':' then [] :: r
    else
      match r with
      | h :: t => (c :: h) :: t
      | [] => [[c]]

/-- `time_str.strip().lower()` (ASCII model). -/
def normalizeTime (s : String) : List Char :=
  (((s.data.dropWhile pyWhitespace).reverse.dropWhile pyWhitespace).reverse).map Char.toLower

/-- The error message raised as `ValueError` (`InvalidTimeFormat`). -/
def timeParseError (s : String) : String :=
  "Unable to parse time string: " ++ String.mk (normalizeTime s)

/-- The colon-delimited fallback of the source: a 3-part split parsed as
`HH:MM:SS` (an `int()` failure falls through via `except ValueError: pass`),
else a 2-part split parsed as `MM:SS`; anything else is unparseable. -/
def colonParse : List (List Char) → Option ℤ
  | [h, m, s2] =>
    match pyInt h, pyInt m, pyInt s2 with
    | some a, some b, some c => some (a * 3600 + b * 60 + c)
    | _, _, _ => none
  | [m, s2] =>
    match pyInt m, pyInt s2 with
    | some b, some c => some (b * 60 + c)
    | _, _ => none
  | _ => none

/-- `parse_time_string` from the source.  Python returns a `float`; every
value it can produce is an integer, modelled as a rational. -/
def parse_time_string (s : String) : Except String ℚ :=
  let t := normalizeTime s
  if !t.isEmpty && t.all Char.isDigit then
    .ok (natOfDigits t)
  else
    let total : ℕ := (searchUnit 'h' t).getD 0 * 3600 +
      (searchUnit 'm' t).getD 0 * 60 + (searchUnit 's' t).getD 0
    if total > 0 then
      .ok total
    else
      match colonParse (splitOnColon t) with
      | some v => .ok (v : ℚ)
      | none => .error (timeParseError s)

/-- The three accepted input forms of the claim, as a decidable predicate on
the normalised input: pure digits; an `<int>h`/`<int>m`/`<int>s` unit
substring; colon-delimited `HH:MM:SS` or `MM:SS` with integer components. -/
def matchesAnyTimeForm (s : String) : Bool :=
  let t := normalizeTime s
  (!t.isEmpty && t.all Char.isDigit) ||
  (['h', 'm', 's'].any fun u =>
    (List.range t.length).any fun i => (matchUnitAt u t i).isSome) ||
  (colonParse (splitOnColon t)).isSome

/-! ## Segmentation planner
(`VideoProcessor.split_video`, src/stream_splitter/video_processor.py lines
77-90; the same count formula appears in `Splitter.process`,
src/stream_splitter/splitter.py lines 52-53)

`total_duration` is a float probed from the input (modelled as ℚ);
`segment_duration` is the validated integer `max_segment_length`.
`int(total / seg)` truncates toward zero — for positive inputs, the floor.
`total % seg` is `fmod`, i.e. `total - seg * floor(total / seg)` here. -/

def seg_quot (total : ℚ) (seg : ℕ) : ℕ :=
  (Int.floor (total / (seg : ℚ))).toNat

def seg_rem (total : ℚ) (seg : ℕ) : ℚ :=
  total - (seg : ℚ) * (seg_quot total seg : ℚ)

/-- `num_segments = int(total/seg) + (1 if total % seg > 0 else 0)`. -/
def num_segments (total : ℚ) (seg : ℕ) : ℕ :=
  seg_quot total seg + (if 0 < seg_rem total seg then 1 else 0)

structure SegWindow where
  start : ℚ
  dur : ℚ
  deriving DecidableEq, Repr

/-- The effective window of segment `i` (0-based): the source invokes the
transcoder with `ss = i * seg` and `t = seg`; ffmpeg's `-t` caps the output
at the end of the input, so the materialised duration is
`min seg (total - start)`. -/
def segWindow (total : ℚ) (seg : ℕ) (i : ℕ) : SegWindow :=
  ⟨(i : ℚ) * (seg : ℚ), min (seg : ℚ) (total - (i : ℚ) * (seg : ℚ))⟩

def split_plan (total : ℚ) (seg : ℕ) : List SegWindow :=
  (List.range (num_segments total seg)).map (segWindow total seg)

/-! ## Segment executor (`VideoProcessor.split_video`, lines 81-112)

The loop body runs the external transcoder for segment `i` (0-based; its
filename carries `i+1`).  On success the output path is appended to
`output_files`; on `ffmpeg.Error` the exception (carrying the tool's
stderr) is logged and re-raised, aborting the batch.  The external tool is
an oracle `run`; a written file is never deleted by this stage, so the
files on disk are exactly the successful indices.  Paths are modelled by
their 0-based segment index. -/

inductive TranscodeResult
  | ok
  | err (stderr : String)
  deriving DecidableEq, Repr

structure ExecTrace where
  written : List ℕ
  attempted : List ℕ
  result : Except String (List ℕ)
  deriving Repr

/-- Process segments `i, i+1, …, i+r-1`. -/
def splitGo (run : ℕ → TranscodeResult) : ℕ → ℕ → ExecTrace
  | _, 0 => ⟨[], [], .ok []⟩
  | i, r + 1 =>
    match run i with
    | .ok =>
      let t := splitGo run (i + 1) r
      ⟨i :: t.written, i :: t.attempted, t.result.map fun l => i :: l⟩
    | .err s => ⟨[], [i], .error s⟩

/-- `split_video` over `n` planned segments with transcode oracle `run`. -/
def split_video_run (run : ℕ → TranscodeResult) (n : ℕ) : ExecTrace :=
  splitGo run 0 n

/-! ## Concatenation stage
(`VideoProcessor.add_intro_outro`, video_processor.py lines 114-157, and
`Splitter._add_intro_outro_to_segments`, splitter.py lines 140-170)

Per segment the stage builds a concat playlist and invokes ffmpeg's
stream-copy concatenation, an oracle `concatRun`.  Paths are strings;
segment `f`'s stitched output is `final_f`. -/

def finalName (f : String) : String := "final_" ++ f

/-- `add_intro_outro`: returns the input unchanged when neither intro nor
outro is set; otherwise runs the external concatenation and returns the
output path, propagating the tool's error. -/
def add_intro_outro (hasIntro hasOutro : Bool)
    (concatRun : String → Except String Unit) (video out : String) :
    Except String String :=
  if !hasIntro && !hasOutro then .ok video
  else
    match concatRun video with
    | .ok _ => .ok out
    | .error e => .error e

structure ConcatOutcome where
  outputs : List String
  disk : List String
  deriving DecidableEq, Repr

/-- `_add_intro_outro_to_segments`: for each segment file, try to stitch it
into `final_<name>`; on success append the stitched path and delete the
original; on any error log it, keep the original in the output list, and
continue.  `disk` records which file of each segment survives. -/
def add_intro_outro_to_segments (hasIntro hasOutro : Bool)
    (concatRun : String → Except String Unit) :
    List String → ConcatOutcome
  | [] => ⟨[], []⟩
  | f :: rest =>
    let t := add_intro_outro_to_segments hasIntro hasOutro concatRun rest
    match add_intro_outro hasIntro hasOutro concatRun f (finalName f) with
    | .ok p => ⟨p :: t.outputs, p :: t.disk⟩
    | .error _ => ⟨f :: t.outputs, f :: t.disk⟩

/-! ## Compatibility checker (`VideoProcessor.validate_compatibility`,
video_processor.py lines 159-183)

`get_video_info` (the ffprobe oracle) either returns a metadata record or
raises; the comprehension probes only paths that exist on disk; any raised
error is caught and turns the whole check into `False`. -/

structure VideoInfo where
  width : ℕ
  height : ℕ
  codec : String
  deriving DecidableEq, Repr

/-- `[self.get_video_info(p) for p in video_paths if p.exists()]` over the
already-filtered list: stops at the first raising probe. -/
def probeAll (probe : String → Except String VideoInfo) :
    List String → Except String (List VideoInfo)
  | [] => .ok []
  | p :: rest =>
    match probe p with
    | .error e => .error e
    | .ok i =>
      match probeAll probe rest with
      | .error e => .error e
      | .ok is => .ok (i :: is)

/-- `validate_compatibility(*video_paths)`. `len(set(xs)) = xs.dedup.length`. -/
def validate_compatibility (pathExists : String → Bool)
    (probe : String → Except String VideoInfo) (video_paths : List String) :
    Bool :=
  if video_paths.length < 2 then true
  else
    match probeAll probe (video_paths.filter pathExists) with
    | .error _ => false
    | .ok infos =>
      if 1 < ((infos.map fun i => (i.width, i.height)).dedup).length then false
      else if 1 < ((infos.map fun i => i.codec).dedup).length then false
      else true

/-! ## Output-pattern rendering (`Splitter._generate_output_pattern`,
splitter.py lines 93-112, and the `{index:02d}` replacement in
`VideoProcessor.split_video`, video_processor.py lines 86-87)

`_generate_output_pattern` calls Python's `str.format` on the naming
pattern with `title`, `date`, and `index="{index}"` (a *string* value, to
be substituted per segment later).  We model `str.format` for patterns
without brace escapes (`{{`/`}}` — none of the repository's templates use
them): literal text plus `{name}` / `{name:spec}` fields.  Applying a
format spec such as `02d` to a `str` value raises
`ValueError: Unknown format code 'd' …`; an empty spec returns the value
unchanged (the only two spec shapes the repository's templates produce). -/

/-- Parse `name}`, or `name:spec}`, returning the remainder after `}`. -/
def parseField (l : List Char) : Option (String × String × List Char) :=
  let name := l.takeWhile fun c => c ≠ ':' && c ≠ '\x7d'
  match l.dropWhile (fun c => c ≠ ':' && c ≠ '\x7d') with
  | '\x7d' :: r => some (String.mk name, "", r)
  | ':' :: r =>
    let spec := r.takeWhile fun c => c ≠ '\x7d'
    match r.dropWhile (fun c => c ≠ '\x7d') with
    | '\x7d' :: r2 => some (String.mk name, String.mk spec, r2)
    | _ => none
  | _ => none

def lookupEnv (env : List (String × String)) (name : String) : Option String :=
  (env.find? fun p => p.1 = name).map Prod.snd

/-- Apply a format spec to a `str` substitution value. -/
def applySpecStr (v : String) (spec : String) : Except String String :=
  if spec = "" then .ok v
  else .error ("Unknown format code for object of type str: " ++ spec)

/-- The format scanner, with a fuel argument that makes the recursion
structural; every step consumes at least one character of the pattern, so
`length + 1` fuel is always sufficient and the out-of-fuel branch is
unreachable for the wrapper below. -/
def pyFormatGo (env : List (String × String)) : ℕ → List Char → Except String String
  | 0, _ => .error "format model: out of fuel"
  | _, [] => .ok ""
  | fuel + 1, c :: rest =>
    if c = '\x7b' then
      match parseField rest with
      | none => .error "Single left brace encountered in format string"
      | some (name, spec, r) =>
        match lookupEnv env name with
        | none => .error ("KeyError: " ++ name)
        | some v =>
          match applySpecStr v spec with
          | .error e => .error e
          | .ok sub => (pyFormatGo env fuel r).map fun t => sub ++ t
    else
      (pyFormatGo env fuel rest).map fun t => String.singleton c ++ t

def pyFormat (env : List (String × String)) (pattern : String) :
    Except String String :=
  pyFormatGo env (pattern.data.length + 1) pattern.data

/-- `_generate_output_pattern`: `naming_pattern.format(title=…, date=…,
index="{index}")`, then `directory / (pattern + "." + format)`. -/
def generate_output_pattern (naming_pattern title date directory fmt : String) :
    Except String String :=
  (pyFormat [("title", title), ("date", date), ("index", "\x7bindex\x7d")]
      naming_pattern).map fun p => directory ++ "/" ++ p ++ "." ++ fmt

/-- The per-segment replacement in `split_video`:
`output_pattern.replace("{index:02d}", f"{i+1:02d}")` (1-based index).
`str.replace` replaces every non-overlapping occurrence left to right;
fuel-structured like `pyFormatGo` (each step consumes ≥ 1 character; the
pattern replaced here is never empty). -/
def pad2 (n : ℕ) : String :=
  if n < 10 then "0" ++ toString n else toString n

def replaceAllGo (pat rep : List Char) : ℕ → List Char → List Char
  | _, [] => []
  | 0, l => l
  | fuel + 1, c :: rest =>
    if pat.isPrefixOf (c :: rest) then
      rep ++ replaceAllGo pat rep fuel ((c :: rest).drop pat.length)
    else
      c :: replaceAllGo pat rep fuel rest

def replaceAll (pat rep l : List Char) : List Char :=
  if pat = [] then l else replaceAllGo pat rep (l.length + 1) l

def render_segment_filename (output_pattern : String) (i : ℕ) : String :=
  String.mk (replaceAll "\x7bindex:02d\x7d".data (pad2 (i + 1)).data
    output_pattern.data)

/-! ## Configuration (`config.py`) and JSON serialisation

`Config.to_dict` is `model_dump(mode='python')`, which keeps
`pathlib.Path` field values as `Path` objects.  `save_json` passes that
dict to `json.dump`, which raises `TypeError: Object of type PosixPath is
not JSON serializable` on any `Path` leaf.  The config tree is two levels
deep (top-level scalars plus the three sub-models), modelled exactly. -/

inductive JLeaf
  | str (s : String)
  | int (n : ℤ)
  | path (p : String)
  | null
  deriving DecidableEq, Repr

inductive JVal
  | leaf (v : JLeaf)
  | obj (fields : List (String × JLeaf))
  deriving DecidableEq, Repr

structure OutputConfig where
  directory : String
  format : String
  naming_pattern : String
  max_segment_length : ℕ
  deriving DecidableEq, Repr

structure IntroOutroConfig where
  intro_path : Option String
  outro_path : Option String
  deriving DecidableEq, Repr

structure ProcessingConfig where
  quality : String
  codec : String
  threads : ℕ
  preset : String
  crf : ℕ
  deriving DecidableEq, Repr

structure Config where
  input_path : String
  output : OutputConfig
  intro_outro : IntroOutroConfig
  processing : ProcessingConfig
  deriving DecidableEq, Repr

def optPathLeaf : Option String → JLeaf
  | none => .null
  | some p => .path p

/-- `Config.to_dict` (`model_dump(mode='python')`): `Path`-typed fields
(`input_path`, `output.directory`, the intro/outro paths) stay `Path`. -/
def Config.to_dict (c : Config) : List (String × JVal) :=
  [("input_path", .leaf (.path c.input_path)),
   ("output", .obj
     [("directory", .path c.output.directory),
      ("format", .str c.output.format),
      ("naming_pattern", .str c.output.naming_pattern),
      ("max_segment_length", .int c.output.max_segment_length)]),
   ("intro_outro", .obj
     [("intro_path", optPathLeaf c.intro_outro.intro_path),
      ("outro_path", optPathLeaf c.intro_outro.outro_path)]),
   ("processing", .obj
     [("quality", .str c.processing.quality),
      ("codec", .str c.processing.codec),
      ("threads", .int c.processing.threads),
      ("preset", .str c.processing.preset),
      ("crf", .int c.processing.crf)])]

def jsonQuote (s : String) : String := "\"" ++ s ++ "\""

/-- `json.dump` on a scalar: `pathlib.Path` has no JSON encoding. -/
def jsonLeaf : JLeaf → Except String String
  | .str s => .ok (jsonQuote s)
  | .int n => .ok (toString n)
  | .null => .ok "null"
  | .path _ => .error "Object of type PosixPath is not JSON serializable"

def jsonVal : JVal → Except String String
  | .leaf v => jsonLeaf v
  | .obj fields => do
    let parts ← fields.mapM fun kv => do
      let s ← jsonLeaf kv.2
      pure (jsonQuote kv.1 ++ ": " ++ s)
    pure ("\x7b" ++ String.intercalate ", " parts ++ "\x7d")

/-- `Config.save_json`: `json.dump(self.to_dict(), f, indent=2)`; the model
returns the serialised text instead of writing the file. -/
def Config.save_json (c : Config) : Except String String := do
  let parts ← c.to_dict.mapM fun kv => do
    let s ← jsonVal kv.2
    pure (jsonQuote kv.1 ++ ": " ++ s)
  pure ("\x7b" ++ String.intercalate ", " parts ++ "\x7d")

end StreamSplitter

deriving instance DecidableEq for Except

namespace StreamSplitter

/-! ## Theorems -/

theorem format_eq_claimed (secs : ℚ) (h0 : 0 ≤ secs) (h1 : secs < 86400) :
    format_duration secs = claimed_format_duration secs := by
  have hf0 : 0 ≤ Int.floor secs := Int.floor_nonneg.mpr h0
  have hf1 : Int.floor secs < 86400 := by
    have : secs < ((86400 : ℤ) : ℚ) := by exact_mod_cast h1
    exact Int.floor_lt.mpr this
  have hemod : (Int.floor secs).emod 86400 = Int.floor secs :=
    Int.emod_eq_of_lt hf0 hf1
  unfold format_duration claimed_format_duration
  rw [hemod]
  set n : ℕ := (Int.floor secs).toNat with hn
  rcases Nat.lt_or_ge n 60 with h60 | h60
  · have hh : n / 3600 = 0 := by omega
    have hm : (n % 3600) / 60 = 0 := by omega
    have hs : n % 60 = n := by omega
    simp [hh, hm, hs, h60]
  · rcases Nat.lt_or_ge n 3600 with h3600 | h3600
    · have hh : n / 3600 = 0 := by omega
      have hm : (n % 3600) / 60 = n / 60 := by omega
      have hmpos : 0 < n / 60 := by omega
      simp [hh, hm, hmpos, Nat.not_lt.mpr h60, h3600]
    · have hhpos : 0 < n / 3600 := by omega
      simp [hhpos, Nat.not_lt.mpr h60, Nat.not_lt.mpr h3600]

/-- C8 (counterexample): the claim renders every value ≥ 1 h as
`"{h}h {m}m {s}s"` with `h` the *total* whole hours, so it demands
`"25h 0m 0s"` for 90000 s; the code reads `timedelta.seconds`, which wraps
at 24 h, and renders `"1h 0m 0s"`. -/
theorem C8_counterexample :
    format_duration 90000 = "1h 0m 0s" ∧
    claimed_format_duration 90000 = "25h 0m 0s" ∧
    format_duration 90000 ≠ claimed_format_duration 90000 :=
  ⟨by decide, by decide, by decide⟩

/-- C8 (amended): for every seconds value in `[0, 86400)` — below one day,
where `timedelta.seconds` is the whole duration — `format_duration` renders
exactly as the claim states: `"{s}s"` below 60 s, `"{m}m {s}s"` below 1 h,
`"{h}h {m}m {s}s"` otherwise, truncating fractional input via floor through
the second; in particular 30 ↦ "30s", 90 ↦ "1m 30s", 3661 ↦ "1h 1m 1s". -/
theorem C8_format_duration (secs : ℚ) (h0 : 0 ≤ secs) (h1 : secs < 86400) :
    format_duration secs = claimed_format_duration secs ∧
    format_duration 30 = "30s" ∧
    format_duration 90 = "1m 30s" ∧
    format_duration 3661 = "1h 1m 1s" :=
  ⟨format_eq_claimed secs h0 h1, by decide, by decide, by decide⟩

theorem C8_format_duration_witness :
    format_duration 3661 = claimed_format_duration 3661 ∧
    format_duration 30 = "30s" ∧
    format_duration 90 = "1m 30s" ∧
    format_duration 3661 = "1h 1m 1s" :=
  C8_format_duration 3661 (by norm_num) (by norm_num)

theorem mem_collapseAux {c : Char} :
    ∀ (l : List Char) (b : Bool), c ∈ collapseAux b l → c ∈ l ∨ c = '_' := by
  intro l
  induction l with
  | nil => intro b h; simp [collapseAux] at h
  | cons d rest ih =>
    intro b h
    by_cases hd : wsOrUnderscore d
    · cases b with
      | true =>
        simp only [collapseAux, hd, if_true] at h
        rcases ih true h with h' | h'
        · exact Or.inl (List.mem_cons_of_mem _ h')
        · exact Or.inr h'
      | false =>
        simp only [collapseAux, hd, if_true] at h
        rcases List.mem_cons.mp h with h' | h'
        · exact Or.inr h'
        · rcases ih true h' with h'' | h''
          · exact Or.inl (List.mem_cons_of_mem _ h'')
          · exact Or.inr h''
    · simp only [collapseAux, hd] at h
      rcases List.mem_cons.mp h with h' | h'
      · exact Or.inl (h' ▸ List.mem_cons_self _ _)
      · rcases ih false h' with h'' | h''
        · exact Or.inl (List.mem_cons_of_mem _ h'')
        · exact Or.inr h''

theorem collapseAux_true_head :
    ∀ l : List Char, (collapseAux true l).head? ≠ some '_' := by
  intro l
  induction l with
  | nil => simp [collapseAux]
  | cons d rest ih =>
    by_cases hd : wsOrUnderscore d
    · simpa [collapseAux, hd] using ih
    · intro h
      simp [collapseAux, hd] at h
      rw [h] at hd
      simp [wsOrUnderscore] at hd

theorem noDoubleUnderscore_cons {x : Char} {l : List Char}
    (hx : x ≠ '_' ∨ l.head? ≠ some '_') (hl : noDoubleUnderscore l = true) :
    noDoubleUnderscore (x :: l) = true := by
  cases l with
  | nil => rfl
  | cons y t =>
    simp only [noDoubleUnderscore, Bool.and_eq_true, Bool.not_eq_true']
    refine ⟨?_, hl⟩
    rcases hx with hx | hx
    · simp [hx]
    · simp only [List.head?_cons, ne_eq, Option.some.injEq] at hx
      simp [hx]

theorem noDoubleUnderscore_collapseAux :
    ∀ (l : List Char) (b : Bool), noDoubleUnderscore (collapseAux b l) = true := by
  intro l
  induction l with
  | nil => intro b; rfl
  | cons d rest ih =>
    intro b
    by_cases hd : wsOrUnderscore d
    · cases b with
      | true => simpa [collapseAux, hd] using ih true
      | false =>
        simp only [collapseAux, hd, if_true]
        exact noDoubleUnderscore_cons (Or.inr (collapseAux_true_head rest)) (ih true)
    · simp only [collapseAux, hd, if_false]
      refine noDoubleUnderscore_cons (Or.inl ?_) (ih false)
      intro h
      rw [h] at hd
      simp [wsOrUnderscore] at hd

theorem noDoubleUnderscore_take :
    ∀ (l : List Char) (n : ℕ), noDoubleUnderscore l = true →
      noDoubleUnderscore (l.take n) = true := by
  intro l
  induction l with
  | nil => intro n _; simp [noDoubleUnderscore]
  | cons c rest ih =>
    intro n h
    cases n with
    | zero => rfl
    | succ m =>
      rw [List.take_succ_cons]
      cases rest with
      | nil => simp [List.take_nil]; rfl
      | cons d t =>
        simp only [noDoubleUnderscore, Bool.and_eq_true, Bool.not_eq_true'] at h
        refine noDoubleUnderscore_cons ?_ (ih m h.2)
        cases m with
        | zero => right; simp [List.take_zero]
        | succ m' =>
          rw [List.take_succ_cons]
          by_cases hc : c = '_'
          · right
            simp only [List.head?_cons, ne_eq, Option.some.injEq]
            intro hd'
            rw [hc, hd'] at h
            simp at h
          · left; exact hc

theorem take_ne_nil {α : Type} {l : List α} (h : l ≠ []) {n : ℕ} (hn : 0 < n) :
    l.take n ≠ [] := by
  cases l with
  | nil => exact absurd rfl h
  | cons c t =>
    cases n with
    | zero => omega
    | succ m => simp [List.take_succ_cons]

theorem mem_stripDotsSpaces {c : Char} {l : List Char}
    (h : c ∈ stripDotsSpaces l) : c ∈ l := by
  unfold stripDotsSpaces at h
  rw [List.mem_reverse] at h
  have h1 := (List.dropWhile_sublist _).subset h
  rw [List.mem_reverse] at h1
  exact (List.dropWhile_sublist _).subset h1

theorem mem_sanitize {c : Char} (s : String) {n : ℕ}
    (h : c ∈ (sanitize_filename s n).data) :
    c ∉ invalidChars ∧ c.toNat ≤ 127 := by
  unfold sanitize_filename at h
  replace h := List.take_subset _ _ h
  by_cases h4 : collapseRuns (stripDotsSpaces (dropNonAscii (replaceInvalid s.data))) = []
  · rw [if_pos h4] at h
    have : c ∈ ['u', 'n', 'n', 'a', 'm', 'e', 'd'] := h
    fin_cases this <;> exact ⟨by decide, by decide⟩
  · rw [if_neg h4] at h
    rcases mem_collapseAux _ _ h with h3 | hu
    · have h2 := mem_stripDotsSpaces h3
      rw [dropNonAscii, List.mem_filter] at h2
      obtain ⟨h1, hascii⟩ := h2
      rw [replaceInvalid, List.mem_map] at h1
      obtain ⟨a, _, ha⟩ := h1
      by_cases hinv : a ∈ invalidChars
      · rw [if_pos hinv] at ha
        subst ha
        exact ⟨by decide, by simp⟩
      · rw [if_neg hinv] at ha
        subst ha
        exact ⟨hinv, by simpa using hascii⟩
    · subst hu
      exact ⟨by decide, by decide⟩

/-- C7 (counterexample): the claim's own collapse rule (runs of
whitespace/underscores become a single underscore) sends `"test<>file"`,
after `<`/`>` are replaced by underscores, to `"test_file"` — not the
`"test__file"` the claim's sample asserts. -/
theorem C7_counterexample :
    sanitize_filename "test<>file" 100 = "test_file" ∧
    sanitize_filename "test<>file" 100 ≠ "test__file" :=
  ⟨by decide, by decide⟩

/-- C7 (amended): `sanitize_filename` replaces the Windows-invalid
characters with underscores, drops characters with no ASCII fallback,
strips leading/trailing dots and spaces, collapses whitespace/underscore
runs into a single underscore, returns `"unnamed"` when the result is
empty, and hard-truncates to `max_length` characters; consequently the
output (at the default `max_length = 100`) never contains an invalid or
non-ASCII character, never contains a doubled underscore, is nonempty and
at most 100 characters; `"test<>file"` maps to `"test_file"` (the doubled
underscore produced by the replacement step is collapsed),
`"file with spaces"` maps to `"file_with_spaces"`, and `""` maps to
`"unnamed"`. -/
theorem C7_sanitize_filename (s : String) :
    (∀ c ∈ (sanitize_filename s 100).data, c ∉ invalidChars) ∧
    (∀ c ∈ (sanitize_filename s 100).data, c.toNat ≤ 127) ∧
    (sanitize_filename s 100).data.length ≤ 100 ∧
    sanitize_filename s 100 ≠ "" ∧
    noDoubleUnderscore (sanitize_filename s 100).data = true ∧
    sanitize_filename "test<>file" 100 = "test_file" ∧
    sanitize_filename "file with spaces" 100 = "file_with_spaces" ∧
    sanitize_filename "" 100 = "unnamed" := by
  refine ⟨fun c hc => (mem_sanitize s hc).1, fun c hc => (mem_sanitize s hc).2,
    ?_, ?_, ?_, by decide, by decide, by decide⟩
  · exact List.length_take_le _ _
  · unfold sanitize_filename
    intro hcontra
    have hnil : ((if collapseRuns (stripDotsSpaces (dropNonAscii
        (replaceInvalid s.data))) = [] then "unnamed".data
        else collapseRuns (stripDotsSpaces (dropNonAscii
          (replaceInvalid s.data)))).take 100) = [] := by
      have := congrArg String.data hcontra
      simpa using this
    revert hnil
    by_cases h4 : collapseRuns (stripDotsSpaces (dropNonAscii (replaceInvalid s.data))) = []
    · rw [if_pos h4]
      exact take_ne_nil (by decide) (by norm_num)
    · rw [if_neg h4]
      exact take_ne_nil h4 (by norm_num)
  · unfold sanitize_filename
    apply noDoubleUnderscore_take
    by_cases h4 : collapseRuns (stripDotsSpaces (dropNonAscii (replaceInvalid s.data))) = []
    · rw [if_pos h4]; decide
    · rw [if_neg h4]
      exact noDoubleUnderscore_collapseAux _ _

theorem C7_sanitize_filename_witness : 'e' ∉ invalidChars :=
  (C7_sanitize_filename "test<>file").1 'e' (by decide)

theorem searchUnit_eq_none {u : Char} {t : List Char}
    (h : ((List.range t.length).any fun i => (matchUnitAt u t i).isSome) = false) :
    searchUnit u t = none := by
  rw [searchUnit, List.findSome?_eq_none_iff]
  intro i hi
  have h' := List.any_eq_false.mp h i hi
  rw [Bool.not_eq_true] at h'
  cases hx : matchUnitAt u t i with
  | none => rfl
  | some v => rw [hx] at h'; simp at h'

/-- C5: `parse_time_expression` (`parse_time_string` in the source) returns
120.0 for "120", 120.0 for "2m", 5400.0 for "1h30m", 5400.0 for "1:30:00"
and 5430.0 for "90:30"; and every input matching none of the three accepted
forms — pure digits; an `<int>h`/`<int>m`/`<int>s` unit substring;
colon-delimited HH:MM:SS or MM:SS with integer components — fails with the
`InvalidTimeFormat` error ("Unable to parse time string: …") rather than
returning a value. -/
theorem C5_parse_time_expression :
    parse_time_string "120" = .ok 120 ∧
    parse_time_string "2m" = .ok 120 ∧
    parse_time_string "1h30m" = .ok 5400 ∧
    parse_time_string "1:30:00" = .ok 5400 ∧
    parse_time_string "90:30" = .ok 5430 ∧
    parse_time_string "abc" = .error (timeParseError "abc") ∧
    ∀ s : String, matchesAnyTimeForm s = false →
      parse_time_string s = .error (timeParseError s) := by
  refine ⟨by decide, by decide, by decide, by decide, by decide, by decide, ?_⟩
  intro s h
  unfold matchesAnyTimeForm at h
  unfold parse_time_string timeParseError
  set t := normalizeTime s with ht
  rw [Bool.or_eq_false_iff, Bool.or_eq_false_iff] at h
  obtain ⟨⟨hA, hB⟩, hC⟩ := h
  have hBs := List.any_eq_false.mp hB
  have hh : searchUnit 'h' t = none :=
    searchUnit_eq_none (Bool.not_eq_true _ ▸ hBs 'h' (by decide))
  have hm : searchUnit 'm' t = none :=
    searchUnit_eq_none (Bool.not_eq_true _ ▸ hBs 'm' (by decide))
  have hs : searchUnit 's' t = none :=
    searchUnit_eq_none (Bool.not_eq_true _ ▸ hBs 's' (by decide))
  have hcp : colonParse (splitOnColon t) = none := by
    cases hx : colonParse (splitOnColon t) with
    | none => rfl
    | some v => rw [hx] at hC; simp at hC
  simp only [hA, Bool.false_eq_true, if_false, hh, hm, hs, Option.getD_none,
    Nat.mul_zero, Nat.zero_mul, Nat.add_zero, Nat.zero_add, gt_iff_lt,
    lt_self_iff_false, if_false, hcp]

theorem C5_parse_time_expression_witness :
    matchesAnyTimeForm "abc" = false ∧
    parse_time_string "abc" = .error (timeParseError "abc") :=
  ⟨by decide, C5_parse_time_expression.2.2.2.2.2.2 "abc" (by decide)⟩

/-- C4: with the documented naming template
`"{title}_part{index:02d}_{date}"`, `_generate_output_pattern` never renders
any path at all: `str.format` is called with the *string* value `"{index}"`
for the `index` field, and applying the integer format spec `02d` to a
string raises `ValueError` — so no `part01` filename is ever produced.  (And
with a spec-less `{index}` template the later
`replace("{index:02d}", …)` finds nothing, so every segment would render the
same path, violating uniqueness either way.) -/
theorem C4_generate_output_pattern_raises :
    generate_output_pattern "\x7btitle\x7d_part\x7bindex:02d\x7d_\x7bdate\x7d"
      "stream" "20251012" "segments" "mp4" =
      .error "Unknown format code for object of type str: 02d" ∧
    (generate_output_pattern "\x7btitle\x7d_part\x7bindex\x7d_\x7bdate\x7d"
        "stream" "20251012" "segments" "mp4").map
        (fun p => render_segment_filename p 0) =
      (generate_output_pattern "\x7btitle\x7d_part\x7bindex\x7d_\x7bdate\x7d"
        "stream" "20251012" "segments" "mp4").map
        (fun p => render_segment_filename p 1) :=
  ⟨by decide, by decide⟩

/-- C9: saving any configuration to JSON raises: `to_dict` is
`model_dump(mode='python')`, which keeps `pathlib.Path` values (at least
`input_path`) as `Path` objects, and `json.dump` raises `TypeError` on
them, so the save half of the round-trip never succeeds.  (The YAML side
fails too: `yaml.dump` serialises `Path` only via `!!python/object` tags,
which `yaml.safe_load` in `from_yaml` refuses.) -/
theorem C9_save_json_always_fails (c : Config) :
    c.save_json = .error "Object of type PosixPath is not JSON serializable" :=
  rfl

theorem splitGo_ok (run : ℕ → TranscodeResult) :
    ∀ (r i : ℕ), (∀ j, i ≤ j → j < i + r → run j = .ok) →
      splitGo run i r =
        ⟨List.range' i r, List.range' i r, .ok (List.range' i r)⟩ := by
  intro r
  induction r with
  | zero => intro i _; rfl
  | succ n ih =>
    intro i h
    have hi : run i = .ok := h i le_rfl (by omega)
    have ht := ih (i + 1) (fun j h1 h2 => h j (by omega) (by omega))
    simp only [splitGo, hi, ht, List.range'_succ]
    rfl

theorem splitGo_fail (run : ℕ → TranscodeResult) (s : String) :
    ∀ (r i k : ℕ), i ≤ k → k < i + r → run k = .err s →
      (∀ j, i ≤ j → j < k → run j = .ok) →
      splitGo run i r =
        ⟨List.range' i (k - i), List.range' i (k - i + 1), .error s⟩ := by
  intro r
  induction r with
  | zero => intro i k h1 h2 _ _; exact absurd h2 (by omega)
  | succ n ih =>
    intro i k h1 h2 hk hpre
    rcases eq_or_lt_of_le h1 with rfl | hik
    · simp only [splitGo, hk]
      simp [List.range'_succ]
    · have hi : run i = .ok := hpre i le_rfl hik
      have ht := ih (i + 1) k (by omega) (by omega) hk
        (fun j ha hb => hpre j (by omega) hb)
      simp only [splitGo, hi, ht]
      have h3 : k - i = (k - (i + 1)) + 1 := by omega
      rw [h3]
      simp [List.range'_succ]
      rfl

/-- C2: in the segment executor, if the transcoder invocation for (0-based)
segment `k` is the first to fail, the files written and left on disk are
exactly those of the earlier segments, nothing beyond `k` is attempted, and
the error carrying the tool's stderr propagates to the caller; when every
invocation succeeds, the returned list holds the output paths (modelled by
their indices; segment `i`'s filename carries `i+1`) in ascending index
order. -/
theorem C2_segment_executor :
    (∀ (run : ℕ → TranscodeResult) (n k : ℕ) (s : String),
       k < n → run k = .err s → (∀ j, j < k → run j = .ok) →
       (split_video_run run n).written = List.range k ∧
       (split_video_run run n).attempted = List.range (k + 1) ∧
       (split_video_run run n).result = .error s) ∧
    (∀ (run : ℕ → TranscodeResult) (n : ℕ),
       (∀ i, i < n → run i = .ok) →
       (split_video_run run n).written = List.range n ∧
       (split_video_run run n).result = .ok (List.range n)) := by
  constructor
  · intro run n k s hk hfail hpre
    have h := splitGo_fail run s n 0 k (by omega) (by omega) hfail
      (fun j _ hb => hpre j hb)
    rw [split_video_run, h]
    refine ⟨?_, ?_, rfl⟩ <;> simp [List.range_eq_range']
  · intro run n hall
    have h := splitGo_ok run n 0 (fun j _ hb => hall j (by omega))
    rw [split_video_run, h]
    exact ⟨by simp [List.range_eq_range'], by simp [List.range_eq_range']⟩

theorem C2_segment_executor_witness :
    ((split_video_run (fun i => if i = 1 then .err "boom" else .ok) 5).written =
       List.range 1 ∧
     (split_video_run (fun i => if i = 1 then .err "boom" else .ok) 5).attempted =
       List.range 2 ∧
     (split_video_run (fun i => if i = 1 then .err "boom" else .ok) 5).result =
       .error "boom") ∧
    (split_video_run (fun _ => .ok) 3).written = List.range 3 ∧
    (split_video_run (fun _ => .ok) 3).result = .ok (List.range 3) :=
  ⟨C2_segment_executor.1 (fun i => if i = 1 then .err "boom" else .ok) 5 1
      "boom" (by omega) (by decide) (by decide),
   C2_segment_executor.2 (fun _ => .ok) 3 (fun i _ => rfl)⟩

theorem concat_outcome_eq (hasIntro hasOutro : Bool)
    (concatRun : String → Except String Unit)
    (hcfg : (hasIntro || hasOutro) = true) :
    ∀ segs : List String,
      add_intro_outro_to_segments hasIntro hasOutro concatRun segs =
        ⟨segs.map fun f => match concatRun f with
           | .ok _ => finalName f
           | .error _ => f,
         segs.map fun f => match concatRun f with
           | .ok _ => finalName f
           | .error _ => f⟩ := by
  have hni : (!hasIntro && !hasOutro) = false := by
    cases hasIntro <;> cases hasOutro <;> simp_all
  intro segs
  induction segs with
  | nil => rfl
  | cons f rest ih =>
    simp only [add_intro_outro_to_segments, add_intro_outro, ih, hni,
      Bool.false_eq_true, if_false, List.map_cons]
    cases hcr : concatRun f <;> simp [hcr]

/-- C3: with an intro and/or outro configured, the concatenation stage
returns exactly one entry per input segment in order — the stitched
`final_<name>` where the external concatenation succeeded (and then only
the stitched file remains on disk, the original having been deleted after
the stitched file was written), and the original unstitched path where it
failed (the original surviving on disk); a single failure is caught inside
the stage (the model is a total function) and the remaining segments are
still stitched, each entry depending only on its own segment's outcome. -/
theorem C3_concat_stage (hasIntro hasOutro : Bool)
    (concatRun : String → Except String Unit) (segs : List String)
    (hcfg : (hasIntro || hasOutro) = true) :
    (add_intro_outro_to_segments hasIntro hasOutro concatRun segs).outputs =
      (segs.map fun f => match concatRun f with
        | .ok _ => finalName f
        | .error _ => f) ∧
    (add_intro_outro_to_segments hasIntro hasOutro concatRun segs).disk =
      (segs.map fun f => match concatRun f with
        | .ok _ => finalName f
        | .error _ => f) ∧
    (add_intro_outro_to_segments hasIntro hasOutro concatRun segs).outputs.length =
      segs.length := by
  rw [concat_outcome_eq hasIntro hasOutro concatRun hcfg segs]
  exact ⟨rfl, rfl, List.length_map _ _⟩

theorem C3_concat_stage_witness :
    (add_intro_outro_to_segments true false
        (fun f => if f = "s3" then .error "x" else .ok ())
        ["s1", "s2", "s3", "s4", "s5"]).outputs =
      ["final_s1", "final_s2", "s3", "final_s4", "final_s5"] := by
  have h := (C3_concat_stage true false
    (fun f => if f = "s3" then .error "x" else .ok ())
    ["s1", "s2", "s3", "s4", "s5"] rfl).1
  rw [h]
  decide

theorem probeAll_congr {probe probe2 : String → Except String VideoInfo} :
    ∀ l : List String, (∀ p ∈ l, probe p = probe2 p) →
      probeAll probe l = probeAll probe2 l := by
  intro l
  induction l with
  | nil => intro _; rfl
  | cons p rest ih =>
    intro h
    simp only [probeAll, h p (List.mem_cons_self _ _),
      ih fun q hq => h q (List.mem_cons_of_mem _ hq)]

/-- C6: `validate_compatibility` is trivially true for fewer than two
paths (for every probe — no probing can influence it); with two or more
paths, a failing probe of any existing path makes the whole check false,
and when all probes of the existing paths succeed the check is false
exactly when the probed descriptors contain more than one distinct
(width, height) pair or more than one distinct codec. -/
theorem C6_validate_compatibility :
    (∀ (ex : String → Bool) (probe : String → Except String VideoInfo)
       (paths : List String), paths.length < 2 →
       validate_compatibility ex probe paths = true) ∧
    (∀ (ex : String → Bool) (probe : String → Except String VideoInfo)
       (paths : List String) (e : String), 2 ≤ paths.length →
       probeAll probe (paths.filter ex) = .error e →
       validate_compatibility ex probe paths = false) ∧
    (∀ (ex : String → Bool) (probe : String → Except String VideoInfo)
       (paths : List String) (infos : List VideoInfo), 2 ≤ paths.length →
       probeAll probe (paths.filter ex) = .ok infos →
       (validate_compatibility ex probe paths = false ↔
         1 < ((infos.map fun i => (i.width, i.height)).dedup).length ∨
         1 < ((infos.map fun i => i.codec).dedup).length)) := by
  refine ⟨?_, ?_, ?_⟩
  · intro ex probe paths h
    rw [validate_compatibility, if_pos h]
  · intro ex probe paths e h2 herr
    rw [validate_compatibility, if_neg (by omega), herr]
  · intro ex probe paths infos h2 hok
    rw [validate_compatibility, if_neg (by omega), hok]
    by_cases hr : 1 < ((infos.map fun i => (i.width, i.height)).dedup).length
    · simp [hr]
    · by_cases hc : 1 < ((infos.map fun i => i.codec).dedup).length
      · simp [hr, hc]
      · simp [hr, hc]

theorem C6_validate_compatibility_witness :
    validate_compatibility (fun _ => true) (fun _ => .ok ⟨1, 1, "c"⟩) ["a"] = true ∧
    validate_compatibility (fun _ => true) (fun _ => .error "boom") ["a", "b"] = false ∧
    (validate_compatibility (fun _ => true)
        (fun p => if p = "a" then .ok ⟨1920, 1080, "h264"⟩ else .ok ⟨1280, 720, "h264"⟩)
        ["a", "b"] = false ↔
      1 < (([(⟨1920, 1080, "h264"⟩ : VideoInfo), ⟨1280, 720, "h264"⟩].map
          fun i => (i.width, i.height)).dedup).length ∨
      1 < (([(⟨1920, 1080, "h264"⟩ : VideoInfo), ⟨1280, 720, "h264"⟩].map
          fun i => i.codec).dedup).length) :=
  ⟨C6_validate_compatibility.1 _ _ ["a"] (by norm_num),
   C6_validate_compatibility.2.1 _ _ ["a", "b"] "boom" (by norm_num) (by decide),
   C6_validate_compatibility.2.2 _ _ ["a", "b"] _ (by norm_num) (by decide)⟩

/-- C10 (counterexample): with two paths of which exactly one exists, the
existing path *is* still probed, and a failing probe makes the check
return false — not the unconditional true the claim asserts. -/
theorem C10_counterexample :
    ((["a", "b"].filter fun p => p == "a").length = 1) ∧
    validate_compatibility (fun p => p == "a") (fun _ => .error "probe failed")
      ["a", "b"] = false :=
  ⟨by decide, by decide⟩

/-- C10 (amended): paths that do not exist on disk are excluded before
probing — the outcome depends only on the probes of the existing paths —
and for two paths of which exactly one exists the check returns true
without comparing any metadata, provided the probe of that single existing
file succeeds (with any descriptor whatsoever; a probe failure still
returns false under the checker's fail-closed policy). -/
theorem C10_nonexistent_excluded :
    (∀ (ex : String → Bool) (probe probe2 : String → Except String VideoInfo)
       (paths : List String),
       (∀ p ∈ paths.filter ex, probe p = probe2 p) →
       validate_compatibility ex probe paths =
         validate_compatibility ex probe2 paths) ∧
    (∀ (ex : String → Bool) (probe : String → Except String VideoInfo)
       (paths : List String), paths.length = 2 →
       (paths.filter ex).length = 1 →
       (∀ p ∈ paths.filter ex, ∃ i, probe p = .ok i) →
       validate_compatibility ex probe paths = true) := by
  constructor
  · intro ex probe probe2 paths h
    rw [validate_compatibility, validate_compatibility,
      probeAll_congr (paths.filter ex) h]
  · intro ex probe paths hlen hfil hex
    obtain ⟨p, hp⟩ := List.length_eq_one.mp hfil
    obtain ⟨info, hinfo⟩ := hex p (hp ▸ List.mem_cons_self _ _)
    rw [validate_compatibility, if_neg (by omega), hp]
    simp [probeAll, hinfo]

theorem C10_nonexistent_excluded_witness :
    validate_compatibility (fun p => p == "a")
      (fun _ => .ok ⟨1920, 1080, "h264"⟩) ["a", "b"] = true :=
  C10_nonexistent_excluded.2 _ _ ["a", "b"] (by decide) (by decide)
    (fun p _ => ⟨⟨1920, 1080, "h264"⟩, rfl⟩)

theorem seg_quot_cast (total : ℚ) (seg : ℕ) (htot : 0 ≤ total) (hseg : 0 < seg) :
    ((seg_quot total seg : ℕ) : ℤ) = Int.floor (total / (seg : ℚ)) := by
  rw [seg_quot]
  exact Int.toNat_of_nonneg
    (Int.floor_nonneg.mpr (div_nonneg htot (by positivity)))

theorem seg_mul_quot_le (total : ℚ) (seg : ℕ) (htot : 0 ≤ total)
    (hseg : 0 < seg) : (seg : ℚ) * (seg_quot total seg : ℚ) ≤ total := by
  have hsq : (0 : ℚ) < (seg : ℚ) := by exact_mod_cast hseg
  have h := Int.floor_le (total / (seg : ℚ))
  rw [le_div_iff₀ hsq] at h
  have hc := seg_quot_cast total seg htot hseg
  have hcq : ((seg_quot total seg : ℕ) : ℚ) =
      ((Int.floor (total / (seg : ℚ)) : ℤ) : ℚ) := by exact_mod_cast hc
  rw [mul_comm, hcq]
  exact h

theorem total_lt_seg_mul_quot_add (total : ℚ) (seg : ℕ) (htot : 0 ≤ total)
    (hseg : 0 < seg) :
    total < (seg : ℚ) * (seg_quot total seg : ℚ) + seg := by
  have hsq : (0 : ℚ) < (seg : ℚ) := by exact_mod_cast hseg
  have h := Int.lt_floor_add_one (total / (seg : ℚ))
  rw [div_lt_iff₀ hsq] at h
  have hc := seg_quot_cast total seg htot hseg
  have hcq : ((seg_quot total seg : ℕ) : ℚ) =
      ((Int.floor (total / (seg : ℚ)) : ℤ) : ℚ) := by exact_mod_cast hc
  calc total < ((Int.floor (total / (seg : ℚ)) : ℤ) + 1 : ℚ) * seg := h
    _ = (seg : ℚ) * ((Int.floor (total / (seg : ℚ)) : ℤ) : ℚ) + seg := by ring
    _ = (seg : ℚ) * (seg_quot total seg : ℚ) + seg := by rw [hcq]

theorem seg_rem_nonneg (total : ℚ) (seg : ℕ) (htot : 0 ≤ total)
    (hseg : 0 < seg) : 0 ≤ seg_rem total seg := by
  have := seg_mul_quot_le total seg htot hseg
  rw [seg_rem]
  linarith

theorem seg_rem_lt (total : ℚ) (seg : ℕ) (htot : 0 ≤ total) (hseg : 0 < seg) :
    seg_rem total seg < seg := by
  have := total_lt_seg_mul_quot_add total seg htot hseg
  rw [seg_rem]
  linarith

theorem num_segments_pos (total : ℚ) (seg : ℕ) (htot : 0 < total)
    (hseg : 0 < seg) : 0 < num_segments total seg := by
  rw [num_segments]
  by_cases hrem : 0 < seg_rem total seg
  · rw [if_pos hrem]; omega
  · rw [if_neg hrem]
    have h0 : seg_rem total seg = 0 :=
      le_antisymm (not_lt.mp hrem) (seg_rem_nonneg total seg htot.le hseg)
    rw [seg_rem, sub_eq_zero] at h0
    have hqne : seg_quot total seg ≠ 0 := by
      intro hz
      rw [hz] at h0
      simp at h0
      exact htot.ne' h0
    omega

/-- Every non-final window's effective duration is the full `seg`. -/
theorem window_dur_full (total : ℚ) (seg : ℕ) (htot : 0 < total)
    (hseg : 0 < seg) (i : ℕ) (hi : i + 1 < num_segments total seg) :
    min (seg : ℚ) (total - (i : ℚ) * seg) = seg := by
  have hq : i + 1 ≤ seg_quot total seg := by
    rw [num_segments] at hi
    by_cases hrem : 0 < seg_rem total seg
    · rw [if_pos hrem] at hi; omega
    · rw [if_neg hrem] at hi; omega
  have hle : (i : ℚ) * seg + seg ≤ total := by
    have h1 : ((i : ℚ) + 1) ≤ (seg_quot total seg : ℚ) := by
      exact_mod_cast hq
    have h2 := seg_mul_quot_le total seg htot.le hseg
    have hsq : (0 : ℚ) ≤ (seg : ℚ) := by positivity
    calc (i : ℚ) * seg + seg = (seg : ℚ) * ((i : ℚ) + 1) := by ring
      _ ≤ (seg : ℚ) * (seg_quot total seg : ℚ) :=
        mul_le_mul_of_nonneg_left h1 hsq
      _ ≤ total := h2
  apply min_eq_left
  linarith

/-- The final window's effective duration is the remainder
`total - start`, and it is positive. -/
theorem window_dur_last (total : ℚ) (seg : ℕ) (htot : 0 < total)
    (hseg : 0 < seg) :
    0 < total - ((num_segments total seg - 1 : ℕ) : ℚ) * seg ∧
      total - ((num_segments total seg - 1 : ℕ) : ℚ) * seg ≤ seg := by
  have hnpos := num_segments_pos total seg htot hseg
  have hA := seg_mul_quot_le total seg htot.le hseg
  have hB := total_lt_seg_mul_quot_add total seg htot.le hseg
  rw [num_segments]
  by_cases hrem : 0 < seg_rem total seg
  · rw [if_pos hrem]
    have h1 : (seg_quot total seg + 1 - 1 : ℕ) = seg_quot total seg := by omega
    rw [h1]
    rw [seg_rem] at hrem
    have hlt := seg_rem_lt total seg htot.le hseg
    rw [seg_rem] at hlt
    constructor <;> nlinarith
  · have h0 : seg_rem total seg = 0 :=
      le_antisymm (not_lt.mp hrem) (seg_rem_nonneg total seg htot.le hseg)
    rw [seg_rem, sub_eq_zero] at h0
    rw [if_neg hrem]
    have hq1 : 1 ≤ seg_quot total seg := by
      rw [num_segments, if_neg hrem] at hnpos; omega
    have hcast : ((seg_quot total seg + 0 - 1 : ℕ) : ℚ) =
        (seg_quot total seg : ℚ) - 1 := by
      have : (seg_quot total seg + 0 - 1 : ℕ) = seg_quot total seg - 1 := by omega
      rw [this]
      push_cast [hq1]
      ring
    rw [hcast]
    have hsq : (0 : ℚ) < (seg : ℚ) := by exact_mod_cast hseg
    constructor <;> nlinarith [h0]

theorem list_range_map_sum (f : ℕ → ℚ) (n : ℕ) :
    ((List.range n).map f).sum = ∑ i in Finset.range n, f i := by
  induction n with
  | zero => simp
  | succ m ih =>
    rw [List.range_succ, List.map_append, List.sum_append,
      Finset.sum_range_succ, ih]
    simp

theorem split_plan_get (total : ℚ) (seg : ℕ) (i : ℕ)
    (h : i < (split_plan total seg).length) :
    (split_plan total seg).get ⟨i, h⟩ = segWindow total seg i := by
  simp [split_plan]

theorem split_plan_length (total : ℚ) (seg : ℕ) :
    (split_plan total seg).length = num_segments total seg := by
  simp [split_plan]

theorem split_plan_sum (total : ℚ) (seg : ℕ) (htot : 0 < total)
    (hseg : 0 < seg) :
    ((split_plan total seg).map SegWindow.dur).sum = total := by
  obtain ⟨m, hm⟩ : ∃ m, num_segments total seg = m + 1 :=
    ⟨num_segments total seg - 1,
      by have := num_segments_pos total seg htot hseg; omega⟩
  rw [split_plan, hm, List.map_map, list_range_map_sum, Finset.sum_range_succ]
  have hlast : (SegWindow.dur ∘ segWindow total seg) m =
      total - (m : ℚ) * seg := by
    have h := window_dur_last total seg htot hseg
    rw [hm] at h
    simp only [Nat.add_sub_cancel] at h
    simp only [Function.comp_apply, segWindow]
    exact min_eq_right h.2
  have hfull : ∀ i ∈ Finset.range m,
      (SegWindow.dur ∘ segWindow total seg) i = (seg : ℚ) := by
    intro i hi
    rw [Finset.mem_range] at hi
    simp only [Function.comp_apply, segWindow]
    exact window_dur_full total seg htot hseg i (by omega)
  rw [Finset.sum_congr rfl hfull, hlast, Finset.sum_const, Finset.card_range,
    nsmul_eq_mul]
  ring

/-- C1: for every positive total duration and `max_segment_length ∈
[60, 7200]`, the planner produces `floor(total/seg)` segments plus one when
the remainder is positive; the windows start at `i * seg`, are contiguous
and non-overlapping (each window starts where the previous one ends), every
effective duration lies in `(0, seg]`, the last window's duration is
`total - start`, the durations sum to `total` exactly, and an exact
multiple `total = k * seg` yields exactly `k` segments (hence no zero-length
trailing window). -/
theorem C1_segmentation_planner (total : ℚ) (seg : ℕ) (htot : 0 < total)
    (hlo : 60 ≤ seg) (hhi : seg ≤ 7200) :
    (split_plan total seg).length = num_segments total seg ∧
    num_segments total seg =
      seg_quot total seg + (if 0 < seg_rem total seg then 1 else 0) ∧
    (∀ i (h : i < (split_plan total seg).length),
      ((split_plan total seg).get ⟨i, h⟩).start = (i : ℚ) * seg) ∧
    (∀ i (h : i + 1 < (split_plan total seg).length),
      ((split_plan total seg).get ⟨i + 1, h⟩).start =
        ((split_plan total seg).get ⟨i, by omega⟩).start +
          ((split_plan total seg).get ⟨i, by omega⟩).dur) ∧
    (∀ i (h : i < (split_plan total seg).length),
      0 < ((split_plan total seg).get ⟨i, h⟩).dur ∧
        ((split_plan total seg).get ⟨i, h⟩).dur ≤ seg) ∧
    0 < (split_plan total seg).length ∧
    (∀ (h : 0 < (split_plan total seg).length),
      ((split_plan total seg).get
          ⟨(split_plan total seg).length - 1, by omega⟩).dur =
        total - ((split_plan total seg).get
          ⟨(split_plan total seg).length - 1, by omega⟩).start) ∧
    ((split_plan total seg).map SegWindow.dur).sum = total ∧
    (∀ k : ℕ, total = (k : ℚ) * seg → num_segments total seg = k) := by
  have hseg : 0 < seg := by omega
  have hlen := split_plan_length total seg
  have hnpos := num_segments_pos total seg htot hseg
  refine ⟨hlen, rfl, ?_, ?_, ?_, ?_, ?_, ?_, ?_⟩
  · intro i h
    rw [split_plan_get]
    rfl
  · intro i h
    rw [split_plan_get, split_plan_get]
    show ((i + 1 : ℕ) : ℚ) * seg =
      (i : ℚ) * seg + min (seg : ℚ) (total - (i : ℚ) * seg)
    rw [window_dur_full total seg htot hseg i (by omega)]
    push_cast
    ring
  · intro i h
    rw [split_plan_get]
    show 0 < min (seg : ℚ) (total - (i : ℚ) * seg) ∧
      min (seg : ℚ) (total - (i : ℚ) * seg) ≤ seg
    refine ⟨?_, min_le_left _ _⟩
    have hlast := window_dur_last total seg htot hseg
    have hi : i ≤ num_segments total seg - 1 := by omega
    have hmono : total - (i : ℚ) * seg ≥
        total - ((num_segments total seg - 1 : ℕ) : ℚ) * seg := by
      have hc : ((i : ℕ) : ℚ) ≤ ((num_segments total seg - 1 : ℕ) : ℚ) := by
        exact_mod_cast hi
      have hsq : (0 : ℚ) ≤ (seg : ℚ) := by positivity
      nlinarith
    have hsq : (0 : ℚ) < (seg : ℚ) := by exact_mod_cast hseg
    exact lt_min hsq (by linarith [hlast.1])
  · omega
  · intro h
    rw [split_plan_get]
    have hlast := window_dur_last total seg htot hseg
    show min (seg : ℚ) (total - ((((split_plan total seg).length - 1 : ℕ)) : ℚ) * seg) = _
    rw [hlen]
    rw [min_eq_right hlast.2]
    rfl
  · exact split_plan_sum total seg htot hseg
  · intro k hk
    have hsq : (0 : ℚ) < (seg : ℚ) := by exact_mod_cast hseg
    have hdiv : total / (seg : ℚ) = (k : ℚ) := by
      rw [hk]
      field_simp
    have hq : seg_quot total seg = k := by
      rw [seg_quot, hdiv]
      rw [show ((k : ℚ)) = ((k : ℤ) : ℚ) by push_cast; rfl]
      rw [Int.floor_intCast]
      simp
    have hrem : seg_rem total seg = 0 := by
      rw [seg_rem, hq, hk]
      ring
    rw [num_segments, hq, hrem]
    simp

theorem C1_segmentation_planner_witness :
    (0 : ℚ) < 150 ∧ 60 ≤ 60 ∧ 60 ≤ 7200 ∧
    ((split_plan 150 60).map SegWindow.dur).sum = 150 ∧
    (split_plan 150 60).length = num_segments 150 60 :=
  ⟨by norm_num, by norm_num, by norm_num,
    (C1_segmentation_planner 150 60 (by norm_num) (by norm_num)
      (by norm_num)).2.2.2.2.2.2.2.1,
    (C1_segmentation_planner 150 60 (by norm_num) (by norm_num)
      (by norm_num)).1⟩

end StreamSplitter
